import Mathlib

/-!
Verification of the Brew-Distance repository (weighted edit distance).

The definitions below are a shallow embedding of the two source files
`brew_distance/brew_distance.py` and `brew_distance/string_distance.py`.
Python real-valued costs are modelled as rationals (`ℚ`), which supports
the exact arithmetic (`+`, `min`, `=`, `<`) the source performs.
-/

namespace BrewDistance

/-- Move enumeration from `brew_distance.py` (`class Move(Enum)`). -/
inductive Move : Type where
  | MATCH
  | INS
  | DEL
  | SUBST
  | INITIAL
deriving DecidableEq, Repr

/-- Backpointer node from `brew_distance.py` (`class Traceback(NamedTuple)`):
a cumulative cost, the move recorded at the cell, and an optional
predecessor node (`None` exactly at the matrix origin). -/
inductive Traceback : Type where
  | mk (cost : ℚ) (move : Move) (traceback : Option Traceback)

/-- Field accessor for `Traceback.cost`. -/
def Traceback.cost : Traceback → ℚ
  | .mk c _ _ => c

/-- Field accessor for `Traceback.move`. -/
def Traceback.move : Traceback → Move
  | .mk _ m _ => m

/-- Field accessor for `Traceback.traceback`. -/
def Traceback.traceback : Traceback → Option Traceback
  | .mk _ _ tb => tb

/-- Embedding of `_best(sub_move, ins_move, del_move)` from
`brew_distance.py`.  Each candidate is the triple the caller builds,
`Traceback(increment, move, predecessor)`: an added cost, a move label and
the predecessor cell's node.  The function keeps the substitution
candidate, replaces it by the insertion candidate only on a strictly
smaller total, then replaces the current best by the deletion candidate
only on a strictly smaller total; finally, if the best total equals the
chosen predecessor's cumulative cost, the move is overwritten with
`Move.MATCH`. -/
def best (sub_move ins_move del_move : ℚ × Move × Traceback) : Traceback :=
  let (increment1, move1, traceback1) := sub_move
  let cost_with_sub := increment1 + traceback1.cost
  let (increment2, move2, traceback2) := ins_move
  let cost_with_ins := increment2 + traceback2.cost
  let (increment3, move3, traceback3) := del_move
  let cost_with_del := increment3 + traceback3.cost
  let b1 : ℚ × Move × Traceback :=
    if cost_with_ins < cost_with_sub then (cost_with_ins, move2, traceback2)
    else (cost_with_sub, move1, traceback1)
  let b2 : ℚ × Move × Traceback :=
    if cost_with_del < b1.1 then (cost_with_del, move3, traceback3) else b1
  let move := if b2.1 = b2.2.2.cost then Move.MATCH else b2.2.1
  Traceback.mk b2.1 move (some b2.2.2)

/-- Embedding of the matrix of `_edit_path(string1, string2, cost)`:
`cell mc ic dc sc i0 s1R s2R` is the node `distances[i, j]` where `s1R`
is the REVERSED length-`i` prefix of `string1` and `s2R` the reversed
length-`j` prefix of `string2` (so the heads of `s1R`/`s2R` are
`string1[i-1]`/`string2[j-1]`).  The four equations are, in order, the
origin cell, the deletions column, the insertions row, and the interior
cells built with `_best` from the diagonal, horizontal and vertical
candidates; they restate the dict-filling loops of the source as a
recurrence (the filling order does not affect the cell values). -/
def cell (mc ic dc sc i0 : ℚ) : List Char → List Char → Traceback
  | [], [] => Traceback.mk i0 Move.INITIAL none
  | _ :: s1R, [] =>
      let so_far := cell mc ic dc sc i0 s1R []
      Traceback.mk (so_far.cost + dc) Move.DEL (some so_far)
  | [], _ :: s2R =>
      let so_far := cell mc ic dc sc i0 [] s2R
      Traceback.mk (so_far.cost + ic) Move.INS (some so_far)
  | c1 :: s1R, c2 :: s2R =>
      let subst := if c1 = c2 then mc else sc
      best (subst, if subst = 0 then Move.MATCH else Move.SUBST, cell mc ic dc sc i0 s1R s2R)
        (ic, Move.INS, cell mc ic dc sc i0 (c1 :: s1R) s2R)
        (dc, Move.DEL, cell mc ic dc sc i0 s1R (c2 :: s2R))
termination_by s1 s2 => s1.length + s2.length
decreasing_by all_goals simp_arith

/-- Embedding of `_edit_path(string1, string2, cost)`: the returned node
is `distances[len1, len2]`, i.e. the cell of the full (reversed)
strings. -/
def edit_path (mc ic dc sc i0 : ℚ) (string1 string2 : List Char) : Traceback :=
  cell mc ic dc sc i0 string1.reverse string2.reverse

/-- Embedding of `_list_edits(raw_edits)`: walk the predecessor chain,
prepending each visited node's move, stopping at the node whose
`traceback` is `None` (whose own move is therefore not reported). -/
def list_edits : Traceback → List Move
  | .mk _ _ none => []
  | .mk _ m (some tb) => list_edits tb ++ [m]

/-- Embedding of the numeric table of `sdist(string1, string2)` from
`string_distance.py` (fixed costs `delCost = insCost = substCost = 1.0`):
`sdistCell s1R s2R` is `d[i, j]` for the reversed prefixes `s1R`, `s2R`,
restating the source's loops (base `d[0,0] = 0.0`, first column adding
`delCost`, first row adding `insCost`, and the plain three-way `min` for
interior cells, in the source's candidate order) as a recurrence. -/
def sdistCell : List Char → List Char → ℚ
  | [], [] => 0
  | _ :: s1R, [] => sdistCell s1R [] + 1
  | [], _ :: s2R => sdistCell [] s2R + 1
  | c1 :: s1R, c2 :: s2R =>
      let subst : ℚ := if c1 = c2 then 0 else 1
      min (sdistCell s1R s2R + subst)
        (min (sdistCell (c1 :: s1R) s2R + 1) (sdistCell s1R (c2 :: s2R) + 1))
termination_by s1 s2 => s1.length + s2.length
decreasing_by all_goals simp_arith

/-- Embedding of `sdist(string1, string2)` from `string_distance.py`:
the value `d[m, n]` of the full table. -/
def sdist (string1 string2 : List Char) : ℚ :=
  sdistCell string1.reverse string2.reverse

/-- Value stored in a cost dictionary entry: either a number (an
`isinstance(..., numbers.Real)` value, modelled as a rational) or a
non-numeric value such as a string or `None` — one that fails the
`numbers.Real` check and whose addition with a number raises
`TypeError`. -/
inductive CostEntry : Type where
  | num (q : ℚ)
  | nonNum
deriving DecidableEq, Repr

/-- Distinct exceptions the `distance` entry point can raise.  The three
`brew*` constructors are the `BrewDistanceException`s raised with the
three distinct messages of the source; `keyError m` is the Python
`KeyError` raised by a dict subscript `cost[m]` on a missing key, and
`typeError` the Python `TypeError` raised when a non-numeric value
reaches the `+` of the matrix loops. -/
inductive PyErr : Type where
  | brewNonStringInput
  | brewInvalidOutput
  | brewInvalidCost
  | keyError (m : Move)
  | typeError
deriving DecidableEq, Repr

/-- Dynamically-typed argument of `distance`: either a string (list of
characters) or a value of any non-string type. -/
inductive PyInput : Type where
  | str (s : List Char)
  | nonStr
deriving DecidableEq, Repr

/-- Value returned by `distance`, depending on the `output` mode: a bare
number, a bare move list, or the pair with the number first.  The number
is a `CostEntry` because `results[0]` is whatever the terminal cell's
`cost` field holds (numeric on every validated path, except that a
non-numeric `Initial` entry can flow through for empty inputs). -/
inductive DistResult : Type where
  | dist (d : CostEntry)
  | edits (es : List Move)
  | both (d : CostEntry) (es : List Move)
deriving DecidableEq, Repr

/-- Cost dictionary containing all five keys, with the given entries, in
the order of the `Move` enumeration. -/
def mkCostE (e1 e2 e3 e4 e5 : CostEntry) : Move → Option CostEntry
  | .MATCH => some e1
  | .INS => some e2
  | .DEL => some e3
  | .SUBST => some e4
  | .INITIAL => some e5

/-- Cost dictionary containing all five keys with numeric values. -/
def mkCost (mc ic dc sc i0 : ℚ) : Move → Option CostEntry :=
  mkCostE (.num mc) (.num ic) (.num dc) (.num sc) (.num i0)

/-- The source's default cost dictionary,
`{MATCH: 0, INS: 1, DEL: 1, SUBST: 1, INITIAL: 0}`. -/
def defaultCost : Move → Option CostEntry :=
  mkCost 0 1 1 1 0

/-- Body of `distance` once both inputs have passed the string check;
see `distance` below for the step-by-step correspondence with the
source. -/
def distanceStr (s1 s2 : List Char) (output : String)
    (cost : Move → Option CostEntry) : Except PyErr DistResult :=
    if ¬(output = "both" ∨ output = "distance" ∨ output = "edits") then
      .error .brewInvalidOutput
    else
      match cost .MATCH with
      | none => .error (.keyError .MATCH)
      | some .nonNum => .error .brewInvalidCost
      | some (.num mc) =>
      match cost .INS with
      | none => .error (.keyError .INS)
      | some .nonNum => .error .brewInvalidCost
      | some (.num ic) =>
      match cost .DEL with
      | none => .error (.keyError .DEL)
      | some .nonNum => .error .brewInvalidCost
      | some (.num dc) =>
      match cost .SUBST with
      | none => .error (.keyError .SUBST)
      | some .nonNum => .error .brewInvalidCost
      | some (.num sc) =>
      match cost .INITIAL with
      | none => .error (.keyError .INITIAL)
      | some (.num i0) =>
          let results := edit_path mc ic dc sc i0 s1 s2
          if output = "distance" then .ok (.dist (.num results.cost))
          else if output = "edits" then .ok (.edits (list_edits results))
          else .ok (.both (.num results.cost) (list_edits results))
      | some .nonNum =>
          if s1 = [] ∧ s2 = [] then
            if output = "distance" then .ok (.dist .nonNum)
            else if output = "edits" then .ok (.edits [])
            else .ok (.both .nonNum [])
          else .error .typeError

/-- Embedding of `distance(string1, string2, output, cost)` from
`brew_distance.py`, with a cost dictionary modelled as a partial map
from keys to entries.  The steps mirror the source in order:
1. non-string input check (`BrewDistanceException` "non-string input");
2. output-mode check (`BrewDistanceException` "invalid output");
3. cost validation: `cost[MATCH]`, `cost[INS]`, `cost[DEL]`,
   `cost[SUBST]` are subscripted left to right by the short-circuiting
   `or` (a missing key raises `KeyError` there) and each present entry
   failing the `numbers.Real` check raises `BrewDistanceException`
   "invalid cost" — `cost[INITIAL]` is never validated;
4. `_edit_path` begins by subscripting all five keys (the first four are
   known numeric here; a missing `INITIAL` raises `KeyError`), then
   fills the matrix: with a numeric `INITIAL` this is `edit_path`; with
   a non-numeric `INITIAL` the origin cell is built without arithmetic,
   so empty inputs return it as the result while any nonempty input hits
   `so_far + cost` in the first filling loop and raises `TypeError`;
5. the result is shaped by the output mode, cost first in the pair. -/
def distance (string1 string2 : PyInput) (output : String)
    (cost : Move → Option CostEntry) : Except PyErr DistResult :=
  match string1, string2 with
  | .nonStr, _ => .error .brewNonStringInput
  | _, .nonStr => .error .brewNonStringInput
  | .str s1, .str s2 => distanceStr s1 s2 output cost

/-- Explicit-state view of one call to `distance`: the result paired
with the cost dictionary as it stands after the call.  The source only
ever reads the dictionary (subscript lookups in the validation chain and
in `_edit_path`); no statement assigns to, deletes from or updates it,
so the post-call state is the pre-call state. -/
def distanceCall (string1 string2 : PyInput) (output : String)
    (cost : Move → Option CostEntry) :
    Except PyErr DistResult × (Move → Option CostEntry) :=
  (distance string1 string2 output cost, cost)

/-- Cost of an edit script, from the specification's description of edit
scripts: the script is applied left to right, `match` copies one (equal)
source/target character, `substitute` rewrites a source character into
the differing target character (rewriting a character into itself is the
match operation), `insert` produces one target character and `delete`
consumes one source character; the script must consume the whole source
and produce the whole target.  `scriptCost mc ic dc sc es s t = some c`
says the script `es` transforms `s` into `t` with total per-operation
cost `c`; `none` says the script is not applicable. -/
def scriptCost (mc ic dc sc : ℚ) : List Move → List Char → List Char → Option ℚ
  | [], [], [] => some 0
  | .MATCH :: es, a :: s, b :: t =>
      if a = b then (scriptCost mc ic dc sc es s t).map (fun c => mc + c) else none
  | .SUBST :: es, a :: s, b :: t =>
      if a = b then none else (scriptCost mc ic dc sc es s t).map (fun c => sc + c)
  | .INS :: es, s, _ :: t => (scriptCost mc ic dc sc es s t).map (fun c => ic + c)
  | .DEL :: es, _ :: s, t => (scriptCost mc ic dc sc es s t).map (fun c => dc + c)
  | _, _, _ => none

/-- Application of an edit sequence to a source string, from the
specification's reading of a returned edit list: processing the list
left to right, `match` copies the current source character, `insert`
adds the current target character, `delete` drops the current source
character and `substitute` replaces the current source character with
the current target character; both strings must be exhausted when the
list ends.  Returns the reconstructed string, or `none` when the
sequence does not fit the strings. -/
def applyEdits : List Move → List Char → List Char → Option (List Char)
  | [], [], [] => some []
  | .MATCH :: es, a :: s, _ :: t => (applyEdits es s t).map (fun r => a :: r)
  | .SUBST :: es, _ :: s, b :: t => (applyEdits es s t).map (fun r => b :: r)
  | .INS :: es, s, b :: t => (applyEdits es s t).map (fun r => b :: r)
  | .DEL :: es, _ :: s, t => applyEdits es s t
  | _, _, _ => none

/-- Edit scripts presented by their final step: `IsScript mc ic dc sc es
s t c` holds when the script `es` transforms `s` into `t` with total
cost `c`, where each rule appends the script's last step together with
the source/target characters it touches.  This is the same class of
scripts as `scriptCost` (proved below) in a form whose recursion matches
the matrix recurrence. -/
inductive IsScript (mc ic dc sc : ℚ) : List Move → List Char → List Char → ℚ → Prop where
  | nil : IsScript mc ic dc sc [] [] [] 0
  | match_ {es s t c} (a : Char) : IsScript mc ic dc sc es s t c →
      IsScript mc ic dc sc (es ++ [.MATCH]) (s ++ [a]) (t ++ [a]) (c + mc)
  | subst {es s t c} {a b : Char} : a ≠ b → IsScript mc ic dc sc es s t c →
      IsScript mc ic dc sc (es ++ [.SUBST]) (s ++ [a]) (t ++ [b]) (c + sc)
  | ins {es s t c} (b : Char) : IsScript mc ic dc sc es s t c →
      IsScript mc ic dc sc (es ++ [.INS]) s (t ++ [b]) (c + ic)
  | del {es s t c} (a : Char) : IsScript mc ic dc sc es s t c →
      IsScript mc ic dc sc (es ++ [.DEL]) (s ++ [a]) t (c + dc)

/-- Final node assembled by `best` when the candidate `(a, m, t)` wins:
total cost `a + t.cost`, the zero-added-cost override applied to the
label, and the candidate's predecessor. -/
def won (a : ℚ) (m : Move) (t : Traceback) : Traceback :=
  Traceback.mk (a + t.cost) (if a + t.cost = t.cost then Move.MATCH else m) (some t)

lemma best_eq (a1 a2 a3 : ℚ) (m1 m2 m3 : Move) (t1 t2 t3 : Traceback) :
    best (a1, m1, t1) (a2, m2, t2) (a3, m3, t3) =
      if a2 + t2.cost < a1 + t1.cost then
        if a3 + t3.cost < a2 + t2.cost then won a3 m3 t3 else won a2 m2 t2
      else
        if a3 + t3.cost < a1 + t1.cost then won a3 m3 t3 else won a1 m1 t1 := by
  simp only [best, won]
  split_ifs <;> simp_all

@[simp] lemma cost_mk (c : ℚ) (m : Move) (tb : Option Traceback) :
    (Traceback.mk c m tb).cost = c := rfl

@[simp] lemma move_mk (c : ℚ) (m : Move) (tb : Option Traceback) :
    (Traceback.mk c m tb).move = m := rfl

@[simp] lemma traceback_mk (c : ℚ) (m : Move) (tb : Option Traceback) :
    (Traceback.mk c m tb).traceback = tb := rfl

@[simp] lemma won_cost (a : ℚ) (m : Move) (t : Traceback) :
    (won a m t).cost = a + t.cost := rfl

lemma best_cost (a1 a2 a3 : ℚ) (m1 m2 m3 : Move) (t1 t2 t3 : Traceback) :
    (best (a1, m1, t1) (a2, m2, t2) (a3, m3, t3)).cost =
      min (a1 + t1.cost) (min (a2 + t2.cost) (a3 + t3.cost)) := by
  rw [best_eq]
  split_ifs with h1 h2 h3
  · rw [min_eq_right h2.le, min_eq_right (h2.trans h1).le, won_cost]
  · rw [min_eq_left (not_lt.mp h2), min_eq_right h1.le, won_cost]
  · rw [min_eq_right (h3.trans_le (not_lt.mp h1)).le, min_eq_right h3.le, won_cost]
  · rw [min_eq_left (le_min (not_lt.mp h1) (not_lt.mp h3)), won_cost]

lemma cell_cost_nonneg (mc ic dc sc i0 : ℚ) (hmc : 0 ≤ mc) (hic : 0 ≤ ic)
    (hdc : 0 ≤ dc) (hsc : 0 ≤ sc) (hi0 : 0 ≤ i0) :
    ∀ s1R s2R, 0 ≤ (cell mc ic dc sc i0 s1R s2R).cost
  | [], [] => by simpa [cell] using hi0
  | c1 :: s1R, [] => by
      have ih := cell_cost_nonneg mc ic dc sc i0 hmc hic hdc hsc hi0 s1R []
      simp only [cell, cost_mk]
      linarith
  | [], c2 :: s2R => by
      have ih := cell_cost_nonneg mc ic dc sc i0 hmc hic hdc hsc hi0 [] s2R
      simp only [cell, cost_mk]
      linarith
  | c1 :: s1R, c2 :: s2R => by
      have ih1 := cell_cost_nonneg mc ic dc sc i0 hmc hic hdc hsc hi0 s1R s2R
      have ih2 := cell_cost_nonneg mc ic dc sc i0 hmc hic hdc hsc hi0 (c1 :: s1R) s2R
      have ih3 := cell_cost_nonneg mc ic dc sc i0 hmc hic hdc hsc hi0 s1R (c2 :: s2R)
      have hsub : (0:ℚ) ≤ if c1 = c2 then mc else sc := by split_ifs <;> assumption
      simp only [cell, best_cost, le_min_iff]
      refine ⟨by linarith, by linarith, by linarith⟩
termination_by s1R s2R => s1R.length + s2R.length
decreasing_by all_goals simp_arith

lemma isScript_cons_match {mc ic dc sc : ℚ} {es s t c} (a : Char)
    (h : IsScript mc ic dc sc es s t c) :
    IsScript mc ic dc sc (.MATCH :: es) (a :: s) (a :: t) (mc + c) := by
  induction h with
  | nil => simpa using IsScript.match_ a IsScript.nil
  | match_ x hp ih => simpa [add_assoc] using ih.match_ x
  | subst hxy hp ih => simpa [add_assoc] using ih.subst hxy
  | ins y hp ih => simpa [add_assoc] using ih.ins y
  | del x hp ih => simpa [add_assoc] using ih.del x

lemma isScript_cons_subst {mc ic dc sc : ℚ} {es s t c} {a b : Char} (hab : a ≠ b)
    (h : IsScript mc ic dc sc es s t c) :
    IsScript mc ic dc sc (.SUBST :: es) (a :: s) (b :: t) (sc + c) := by
  induction h with
  | nil => simpa using IsScript.subst hab IsScript.nil
  | match_ x hp ih => simpa [add_assoc] using ih.match_ x
  | subst hxy hp ih => simpa [add_assoc] using ih.subst hxy
  | ins y hp ih => simpa [add_assoc] using ih.ins y
  | del x hp ih => simpa [add_assoc] using ih.del x

lemma isScript_cons_ins {mc ic dc sc : ℚ} {es s t c} (b : Char)
    (h : IsScript mc ic dc sc es s t c) :
    IsScript mc ic dc sc (.INS :: es) s (b :: t) (ic + c) := by
  induction h with
  | nil => simpa using IsScript.ins b IsScript.nil
  | match_ x hp ih => simpa [add_assoc] using ih.match_ x
  | subst hxy hp ih => simpa [add_assoc] using ih.subst hxy
  | ins y hp ih => simpa [add_assoc] using ih.ins y
  | del x hp ih => simpa [add_assoc] using ih.del x

lemma isScript_cons_del {mc ic dc sc : ℚ} {es s t c} (a : Char)
    (h : IsScript mc ic dc sc es s t c) :
    IsScript mc ic dc sc (.DEL :: es) (a :: s) t (dc + c) := by
  induction h with
  | nil => simpa using IsScript.del a IsScript.nil
  | match_ x hp ih => simpa [add_assoc] using ih.match_ x
  | subst hxy hp ih => simpa [add_assoc] using ih.subst hxy
  | ins y hp ih => simpa [add_assoc] using ih.ins y
  | del x hp ih => simpa [add_assoc] using ih.del x

lemma isScript_of_scriptCost {mc ic dc sc : ℚ} :
    ∀ es s t c, scriptCost mc ic dc sc es s t = some c →
      IsScript mc ic dc sc es s t c := by
  intro es
  induction es with
  | nil =>
      intro s t c h
      cases s <;> cases t <;> simp [scriptCost] at h
      rw [← h]
      exact IsScript.nil
  | cons e es ih =>
      intro s t c h
      cases e with
      | MATCH =>
          cases s with
          | nil => simp [scriptCost] at h
          | cons a s =>
            cases t with
            | nil => simp [scriptCost] at h
            | cons b t =>
              by_cases hab : a = b
              · subst hab
                cases hX : scriptCost mc ic dc sc es s t with
                | none => simp [scriptCost, hX] at h
                | some c' =>
                    simp [scriptCost, hX] at h
                    subst h
                    exact isScript_cons_match a (ih s t c' hX)
              · simp [scriptCost, hab] at h
      | SUBST =>
          cases s with
          | nil => simp [scriptCost] at h
          | cons a s =>
            cases t with
            | nil => simp [scriptCost] at h
            | cons b t =>
              by_cases hab : a = b
              · simp [scriptCost, hab] at h
              · cases hX : scriptCost mc ic dc sc es s t with
                | none => simp [scriptCost, hab, hX] at h
                | some c' =>
                    simp [scriptCost, hab, hX] at h
                    subst h
                    exact isScript_cons_subst hab (ih s t c' hX)
      | INS =>
          cases t with
          | nil => cases s <;> simp [scriptCost] at h
          | cons b t =>
              cases hX : scriptCost mc ic dc sc es s t with
              | none => simp [scriptCost, hX] at h
              | some c' =>
                  simp [scriptCost, hX] at h
                  subst h
                  exact isScript_cons_ins b (ih s t c' hX)
      | DEL =>
          cases s with
          | nil => cases t <;> simp [scriptCost] at h
          | cons a s =>
              cases hX : scriptCost mc ic dc sc es s t with
              | none => simp [scriptCost, hX] at h
              | some c' =>
                  simp [scriptCost, hX] at h
                  subst h
                  exact isScript_cons_del a (ih s t c' hX)
      | INITIAL => cases s <;> cases t <;> simp [scriptCost] at h

lemma scriptCost_snoc_match {mc ic dc sc : ℚ} (a : Char) :
    ∀ es s t c, scriptCost mc ic dc sc es s t = some c →
      scriptCost mc ic dc sc (es ++ [.MATCH]) (s ++ [a]) (t ++ [a]) = some (c + mc) := by
  intro es
  induction es with
  | nil =>
      intro s t c h
      cases s <;> cases t <;> simp [scriptCost] at h
      subst h
      simp [scriptCost]
  | cons e es ih =>
      intro s t c h
      cases e with
      | MATCH =>
          cases s with
          | nil => cases t <;> simp [scriptCost] at h
          | cons x s =>
            cases t with
            | nil => simp [scriptCost] at h
            | cons y t =>
              by_cases hxy : x = y
              · subst hxy
                cases hX : scriptCost mc ic dc sc es s t with
                | none => simp [scriptCost, hX] at h
                | some c' =>
                    simp [scriptCost, hX] at h
                    subst h
                    simp [scriptCost, ih s t c' hX, add_assoc]
              · simp [scriptCost, hxy] at h
      | SUBST =>
          cases s with
          | nil => cases t <;> simp [scriptCost] at h
          | cons x s =>
            cases t with
            | nil => simp [scriptCost] at h
            | cons y t =>
              by_cases hxy : x = y
              · simp [scriptCost, hxy] at h
              · cases hX : scriptCost mc ic dc sc es s t with
                | none => simp [scriptCost, hxy, hX] at h
                | some c' =>
                    simp [scriptCost, hxy, hX] at h
                    subst h
                    simp [scriptCost, hxy, ih s t c' hX, add_assoc]
      | INS =>
          cases t with
          | nil => cases s <;> simp [scriptCost] at h
          | cons y t =>
              cases hX : scriptCost mc ic dc sc es s t with
              | none => simp [scriptCost, hX] at h
              | some c' =>
                  simp [scriptCost, hX] at h
                  subst h
                  simp [scriptCost, ih s t c' hX, add_assoc]
      | DEL =>
          cases s with
          | nil => cases t <;> simp [scriptCost] at h
          | cons x s =>
              cases hX : scriptCost mc ic dc sc es s t with
              | none => simp [scriptCost, hX] at h
              | some c' =>
                  simp [scriptCost, hX] at h
                  subst h
                  simp [scriptCost, ih s t c' hX, add_assoc]
      | INITIAL => cases s <;> cases t <;> simp [scriptCost] at h

lemma scriptCost_snoc_subst {mc ic dc sc : ℚ} {a b : Char} (hab : a ≠ b) :
    ∀ es s t c, scriptCost mc ic dc sc es s t = some c →
      scriptCost mc ic dc sc (es ++ [.SUBST]) (s ++ [a]) (t ++ [b]) = some (c + sc) := by
  intro es
  induction es with
  | nil =>
      intro s t c h
      cases s <;> cases t <;> simp [scriptCost] at h
      subst h
      simp [scriptCost, hab]
  | cons e es ih =>
      intro s t c h
      cases e with
      | MATCH =>
          cases s with
          | nil => cases t <;> simp [scriptCost] at h
          | cons x s =>
            cases t with
            | nil => simp [scriptCost] at h
            | cons y t =>
              by_cases hxy : x = y
              · subst hxy
                cases hX : scriptCost mc ic dc sc es s t with
                | none => simp [scriptCost, hX] at h
                | some c' =>
                    simp [scriptCost, hX] at h
                    subst h
                    simp [scriptCost, hab, ih s t c' hX, add_assoc]
              · simp [scriptCost, hxy] at h
      | SUBST =>
          cases s with
          | nil => cases t <;> simp [scriptCost] at h
          | cons x s =>
            cases t with
            | nil => simp [scriptCost] at h
            | cons y t =>
              by_cases hxy : x = y
              · simp [scriptCost, hxy] at h
              · cases hX : scriptCost mc ic dc sc es s t with
                | none => simp [scriptCost, hxy, hX] at h
                | some c' =>
                    simp [scriptCost, hxy, hX] at h
                    subst h
                    simp [scriptCost, hxy, hab, ih s t c' hX, add_assoc]
      | INS =>
          cases t with
          | nil => cases s <;> simp [scriptCost] at h
          | cons y t =>
              cases hX : scriptCost mc ic dc sc es s t with
              | none => simp [scriptCost, hX] at h
              | some c' =>
                  simp [scriptCost, hX] at h
                  subst h
                  simp [scriptCost, hab, ih s t c' hX, add_assoc]
      | DEL =>
          cases s with
          | nil => cases t <;> simp [scriptCost] at h
          | cons x s =>
              cases hX : scriptCost mc ic dc sc es s t with
              | none => simp [scriptCost, hX] at h
              | some c' =>
                  simp [scriptCost, hX] at h
                  subst h
                  simp [scriptCost, hab, ih s t c' hX, add_assoc]
      | INITIAL => cases s <;> cases t <;> simp [scriptCost] at h

lemma scriptCost_snoc_ins {mc ic dc sc : ℚ} (b : Char) :
    ∀ es s t c, scriptCost mc ic dc sc es s t = some c →
      scriptCost mc ic dc sc (es ++ [.INS]) (s) (t ++ [b]) = some (c + ic) := by
  intro es
  induction es with
  | nil =>
      intro s t c h
      cases s <;> cases t <;> simp [scriptCost] at h
      subst h
      simp [scriptCost]
  | cons e es ih =>
      intro s t c h
      cases e with
      | MATCH =>
          cases s with
          | nil => cases t <;> simp [scriptCost] at h
          | cons x s =>
            cases t with
            | nil => simp [scriptCost] at h
            | cons y t =>
              by_cases hxy : x = y
              · subst hxy
                cases hX : scriptCost mc ic dc sc es s t with
                | none => simp [scriptCost, hX] at h
                | some c' =>
                    simp [scriptCost, hX] at h
                    subst h
                    simp [scriptCost, ih s t c' hX, add_assoc]
              · simp [scriptCost, hxy] at h
      | SUBST =>
          cases s with
          | nil => cases t <;> simp [scriptCost] at h
          | cons x s =>
            cases t with
            | nil => simp [scriptCost] at h
            | cons y t =>
              by_cases hxy : x = y
              · simp [scriptCost, hxy] at h
              · cases hX : scriptCost mc ic dc sc es s t with
                | none => simp [scriptCost, hxy, hX] at h
                | some c' =>
                    simp [scriptCost, hxy, hX] at h
                    subst h
                    simp [scriptCost, hxy, ih s t c' hX, add_assoc]
      | INS =>
          cases t with
          | nil => cases s <;> simp [scriptCost] at h
          | cons y t =>
              cases hX : scriptCost mc ic dc sc es s t with
              | none => simp [scriptCost, hX] at h
              | some c' =>
                  simp [scriptCost, hX] at h
                  subst h
                  simp [scriptCost, ih s t c' hX, add_assoc]
      | DEL =>
          cases s with
          | nil => cases t <;> simp [scriptCost] at h
          | cons x s =>
              cases hX : scriptCost mc ic dc sc es s t with
              | none => simp [scriptCost, hX] at h
              | some c' =>
                  simp [scriptCost, hX] at h
                  subst h
                  simp [scriptCost, ih s t c' hX, add_assoc]
      | INITIAL => cases s <;> cases t <;> simp [scriptCost] at h

lemma scriptCost_snoc_del {mc ic dc sc : ℚ} (a : Char) :
    ∀ es s t c, scriptCost mc ic dc sc es s t = some c →
      scriptCost mc ic dc sc (es ++ [.DEL]) (s ++ [a]) (t) = some (c + dc) := by
  intro es
  induction es with
  | nil =>
      intro s t c h
      cases s <;> cases t <;> simp [scriptCost] at h
      subst h
      simp [scriptCost]
  | cons e es ih =>
      intro s t c h
      cases e with
      | MATCH =>
          cases s with
          | nil => cases t <;> simp [scriptCost] at h
          | cons x s =>
            cases t with
            | nil => simp [scriptCost] at h
            | cons y t =>
              by_cases hxy : x = y
              · subst hxy
                cases hX : scriptCost mc ic dc sc es s t with
                | none => simp [scriptCost, hX] at h
                | some c' =>
                    simp [scriptCost, hX] at h
                    subst h
                    simp [scriptCost, ih s t c' hX, add_assoc]
              · simp [scriptCost, hxy] at h
      | SUBST =>
          cases s with
          | nil => cases t <;> simp [scriptCost] at h
          | cons x s =>
            cases t with
            | nil => simp [scriptCost] at h
            | cons y t =>
              by_cases hxy : x = y
              · simp [scriptCost, hxy] at h
              · cases hX : scriptCost mc ic dc sc es s t with
                | none => simp [scriptCost, hxy, hX] at h
                | some c' =>
                    simp [scriptCost, hxy, hX] at h
                    subst h
                    simp [scriptCost, hxy, ih s t c' hX, add_assoc]
      | INS =>
          cases t with
          | nil => cases s <;> simp [scriptCost] at h
          | cons y t =>
              cases hX : scriptCost mc ic dc sc es s t with
              | none => simp [scriptCost, hX] at h
              | some c' =>
                  simp [scriptCost, hX] at h
                  subst h
                  simp [scriptCost, ih s t c' hX, add_assoc]
      | DEL =>
          cases s with
          | nil => cases t <;> simp [scriptCost] at h
          | cons x s =>
              cases hX : scriptCost mc ic dc sc es s t with
              | none => simp [scriptCost, hX] at h
              | some c' =>
                  simp [scriptCost, hX] at h
                  subst h
                  simp [scriptCost, ih s t c' hX, add_assoc]
      | INITIAL => cases s <;> cases t <;> simp [scriptCost] at h

lemma scriptCost_of_isScript {mc ic dc sc : ℚ} {es s t c}
    (h : IsScript mc ic dc sc es s t c) : scriptCost mc ic dc sc es s t = some c := by
  induction h with
  | nil => simp [scriptCost]
  | match_ a hp ih => exact scriptCost_snoc_match a _ _ _ _ ih
  | subst hab hp ih => exact scriptCost_snoc_subst hab _ _ _ _ ih
  | ins b hp ih => exact scriptCost_snoc_ins b _ _ _ _ ih
  | del a hp ih => exact scriptCost_snoc_del a _ _ _ _ ih

lemma cell_le_of_isScript {mc ic dc sc : ℚ} {es s t c}
    (h : IsScript mc ic dc sc es s t c) :
    (cell mc ic dc sc 0 s.reverse t.reverse).cost ≤ c := by
  induction h with
  | nil => simp [cell]
  | @match_ es s t c a hp ih =>
      simp only [List.reverse_append, List.reverse_singleton, List.singleton_append]
      simp only [cell, best_cost]
      refine le_trans (min_le_left _ _) ?_
      simp only [ite_true]
      linarith
  | @subst es s t c a b hab hp ih =>
      simp only [List.reverse_append, List.reverse_singleton, List.singleton_append]
      simp only [cell, best_cost]
      refine le_trans (min_le_left _ _) ?_
      simp only [if_neg hab]
      linarith
  | @ins es s t c b hp ih =>
      simp only [List.reverse_append, List.reverse_singleton, List.singleton_append]
      cases hs : s.reverse with
      | nil =>
          rw [hs] at ih
          simp only [cell, cost_mk]
          linarith
      | cons x sR =>
          rw [hs] at ih
          simp only [cell, best_cost]
          refine le_trans (le_trans (min_le_right _ _) (min_le_left _ _)) ?_
          linarith
  | @del es s t c a hp ih =>
      simp only [List.reverse_append, List.reverse_singleton, List.singleton_append]
      cases ht : t.reverse with
      | nil =>
          rw [ht] at ih
          simp only [cell, cost_mk]
          linarith
      | cons y tR =>
          rw [ht] at ih
          simp only [cell, best_cost]
          refine le_trans (le_trans (min_le_right _ _) (min_le_right _ _)) ?_
          linarith

lemma exists_isScript_cell (mc ic dc sc : ℚ) : ∀ s1R s2R, ∃ es,
    IsScript mc ic dc sc es s1R.reverse s2R.reverse ((cell mc ic dc sc 0 s1R s2R).cost)
  | [], [] => ⟨[], by simpa [cell] using IsScript.nil⟩
  | c1 :: s1R, [] => by
      obtain ⟨es, he⟩ := exists_isScript_cell mc ic dc sc s1R []
      exact ⟨es ++ [.DEL], by simpa [cell, List.reverse_cons] using he.del c1⟩
  | [], c2 :: s2R => by
      obtain ⟨es, he⟩ := exists_isScript_cell mc ic dc sc [] s2R
      exact ⟨es ++ [.INS], by simpa [cell, List.reverse_cons] using he.ins c2⟩
  | c1 :: s1R, c2 :: s2R => by
      obtain ⟨e1, h1⟩ := exists_isScript_cell mc ic dc sc s1R s2R
      obtain ⟨e2, h2⟩ := exists_isScript_cell mc ic dc sc (c1 :: s1R) s2R
      obtain ⟨e3, h3⟩ := exists_isScript_cell mc ic dc sc s1R (c2 :: s2R)
      have hcost : (cell mc ic dc sc 0 (c1 :: s1R) (c2 :: s2R)).cost =
          min ((if c1 = c2 then mc else sc) + (cell mc ic dc sc 0 s1R s2R).cost)
            (min (ic + (cell mc ic dc sc 0 (c1 :: s1R) s2R).cost)
              (dc + (cell mc ic dc sc 0 s1R (c2 :: s2R)).cost)) := by
        simp [cell, best_cost]
      rcases le_total ((if c1 = c2 then mc else sc) + (cell mc ic dc sc 0 s1R s2R).cost)
          (min (ic + (cell mc ic dc sc 0 (c1 :: s1R) s2R).cost)
            (dc + (cell mc ic dc sc 0 s1R (c2 :: s2R)).cost)) with hle | hge
      · rw [hcost, min_eq_left hle]
        by_cases hc : c1 = c2
        · subst hc
          exact ⟨e1 ++ [.MATCH],
            by simpa [List.reverse_cons, add_comm] using h1.match_ c1⟩
        · exact ⟨e1 ++ [.SUBST],
            by simpa [List.reverse_cons, hc, add_comm] using h1.subst hc⟩
      · rw [hcost, min_eq_right hge]
        rcases le_total (ic + (cell mc ic dc sc 0 (c1 :: s1R) s2R).cost)
            (dc + (cell mc ic dc sc 0 s1R (c2 :: s2R)).cost) with h23 | h32
        · rw [min_eq_left h23]
          exact ⟨e2 ++ [.INS], by simpa [List.reverse_cons, add_comm] using h2.ins c2⟩
        · rw [min_eq_right h32]
          exact ⟨e3 ++ [.DEL], by simpa [List.reverse_cons, add_comm] using h3.del c1⟩
termination_by s1R s2R => s1R.length + s2R.length
decreasing_by all_goals simp_arith

lemma initial_not_mem_list_edits (mc ic dc sc i0 : ℚ) : ∀ s1R s2R,
    Move.INITIAL ∉ list_edits (cell mc ic dc sc i0 s1R s2R)
  | [], [] => by simp [cell, list_edits]
  | c1 :: s1R, [] => by
      have ih := initial_not_mem_list_edits mc ic dc sc i0 s1R []
      simp only [cell, list_edits, List.mem_append, List.mem_singleton]
      rintro (hmem | hbad)
      · exact ih hmem
      · exact Move.noConfusion hbad
  | [], c2 :: s2R => by
      have ih := initial_not_mem_list_edits mc ic dc sc i0 [] s2R
      simp only [cell, list_edits, List.mem_append, List.mem_singleton]
      rintro (hmem | hbad)
      · exact ih hmem
      · exact Move.noConfusion hbad
  | c1 :: s1R, c2 :: s2R => by
      have ih1 := initial_not_mem_list_edits mc ic dc sc i0 s1R s2R
      have ih2 := initial_not_mem_list_edits mc ic dc sc i0 (c1 :: s1R) s2R
      have ih3 := initial_not_mem_list_edits mc ic dc sc i0 s1R (c2 :: s2R)
      simp only [cell, best_eq, won]
      split_ifs <;>
        simp only [list_edits, List.mem_append, List.mem_singleton] <;>
        rintro (hmem | hbad) <;>
        first
          | exact ih1 hmem
          | exact ih2 hmem
          | exact ih3 hmem
          | exact Move.noConfusion hbad
termination_by s1R s2R => s1R.length + s2R.length
decreasing_by all_goals simp_arith

lemma isScript_list_edits : ∀ s1R s2R,
    IsScript 0 1 1 1 (list_edits (cell 0 1 1 1 0 s1R s2R)) s1R.reverse s2R.reverse
      ((cell 0 1 1 1 0 s1R s2R).cost)
  | [], [] => by simpa [cell, list_edits] using IsScript.nil
  | c1 :: s1R, [] => by
      have ih := isScript_list_edits s1R []
      simpa [cell, list_edits, List.reverse_cons] using ih.del c1
  | [], c2 :: s2R => by
      have ih := isScript_list_edits [] s2R
      simpa [cell, list_edits, List.reverse_cons] using ih.ins c2
  | c1 :: s1R, c2 :: s2R => by
      have ih1 := isScript_list_edits s1R s2R
      have ih2 := isScript_list_edits (c1 :: s1R) s2R
      have ih3 := isScript_list_edits s1R (c2 :: s2R)
      by_cases hc : c1 = c2
      · subst hc
        simp only [cell, if_pos rfl, ite_true, best_eq]
        split_ifs with h1 h2 h3
        · simpa [won, list_edits, List.reverse_cons, add_comm] using ih3.del c1
        · simpa [won, list_edits, List.reverse_cons, add_comm] using ih2.ins c1
        · simpa [won, list_edits, List.reverse_cons, add_comm] using ih3.del c1
        · simpa [won, list_edits, List.reverse_cons, add_comm] using ih1.match_ c1
      · simp only [cell, if_neg hc, if_neg (one_ne_zero (α := ℚ)), best_eq]
        split_ifs with h1 h2 h3
        · simpa [won, list_edits, List.reverse_cons, add_comm] using ih3.del c1
        · simpa [won, list_edits, List.reverse_cons, add_comm] using ih2.ins c2
        · simpa [won, list_edits, List.reverse_cons, add_comm] using ih3.del c1
        · simpa [won, list_edits, List.reverse_cons, hc, add_comm] using ih1.subst hc
termination_by s1R s2R => s1R.length + s2R.length
decreasing_by all_goals simp_arith

lemma applyEdits_eq_target {mc ic dc sc : ℚ} :
    ∀ es s t c, scriptCost mc ic dc sc es s t = some c → applyEdits es s t = some t := by
  intro es
  induction es with
  | nil =>
      intro s t c h
      cases s <;> cases t <;> simp [scriptCost] at h
      simp [applyEdits]
  | cons e es ih =>
      intro s t c h
      cases e with
      | MATCH =>
          cases s with
          | nil => cases t <;> simp [scriptCost] at h
          | cons a s =>
            cases t with
            | nil => simp [scriptCost] at h
            | cons b t =>
              by_cases hab : a = b
              · subst hab
                cases hX : scriptCost mc ic dc sc es s t with
                | none => simp [scriptCost, hX] at h
                | some c' => simp [applyEdits, ih s t c' hX]
              · simp [scriptCost, hab] at h
      | SUBST =>
          cases s with
          | nil => cases t <;> simp [scriptCost] at h
          | cons a s =>
            cases t with
            | nil => simp [scriptCost] at h
            | cons b t =>
              by_cases hab : a = b
              · simp [scriptCost, hab] at h
              · cases hX : scriptCost mc ic dc sc es s t with
                | none => simp [scriptCost, hab, hX] at h
                | some c' => simp [applyEdits, ih s t c' hX]
      | INS =>
          cases t with
          | nil => cases s <;> simp [scriptCost] at h
          | cons b t =>
              cases hX : scriptCost mc ic dc sc es s t with
              | none => simp [scriptCost, hX] at h
              | some c' => simp [applyEdits, ih s t c' hX]
      | DEL =>
          cases s with
          | nil => cases t <;> simp [scriptCost] at h
          | cons a s =>
              cases hX : scriptCost mc ic dc sc es s t with
              | none => simp [scriptCost, hX] at h
              | some c' => simp [applyEdits, ih s t c' hX]
      | INITIAL => cases s <;> cases t <;> simp [scriptCost] at h

lemma sdistCell_eq_cell : ∀ s1R s2R, sdistCell s1R s2R = (cell 0 1 1 1 0 s1R s2R).cost
  | [], [] => by simp [sdistCell, cell]
  | c1 :: s1R, [] => by
      have ih := sdistCell_eq_cell s1R []
      simp [sdistCell, cell, ih]
  | [], c2 :: s2R => by
      have ih := sdistCell_eq_cell [] s2R
      simp [sdistCell, cell, ih]
  | c1 :: s1R, c2 :: s2R => by
      have ih1 := sdistCell_eq_cell s1R s2R
      have ih2 := sdistCell_eq_cell (c1 :: s1R) s2R
      have ih3 := sdistCell_eq_cell s1R (c2 :: s2R)
      simp only [sdistCell, cell, best_cost, ih1, ih2, ih3]
      rw [add_comm ((cell 0 1 1 1 0 s1R s2R).cost) (if c1 = c2 then (0:ℚ) else 1),
        add_comm ((cell 0 1 1 1 0 (c1 :: s1R) s2R).cost) 1,
        add_comm ((cell 0 1 1 1 0 s1R (c2 :: s2R)).cost) 1]
termination_by s1R s2R => s1R.length + s2R.length
decreasing_by all_goals simp_arith

lemma cell_symm (mc ic sc i0 : ℚ) : ∀ s1R s2R,
    (cell mc ic ic sc i0 s1R s2R).cost = (cell mc ic ic sc i0 s2R s1R).cost
  | [], [] => rfl
  | c1 :: s1R, [] => by
      have ih := cell_symm mc ic sc i0 s1R []
      simp [cell, ih]
  | [], c2 :: s2R => by
      have ih := cell_symm mc ic sc i0 [] s2R
      simp [cell, ih]
  | c1 :: s1R, c2 :: s2R => by
      have ih1 := cell_symm mc ic sc i0 s1R s2R
      have ih2 := cell_symm mc ic sc i0 (c1 :: s1R) s2R
      have ih3 := cell_symm mc ic sc i0 s1R (c2 :: s2R)
      have hcc : (if c1 = c2 then mc else sc) = if c2 = c1 then mc else sc := by
        by_cases h : c1 = c2
        · simp [h]
        · rw [if_neg h, if_neg (fun hh : c2 = c1 => h hh.symm)]
      simp only [cell, best_cost]
      rw [ih1, ih2, ih3, hcc,
        min_comm (ic + (cell mc ic ic sc i0 s2R (c1 :: s1R)).cost)
          (ic + (cell mc ic ic sc i0 (c2 :: s2R) s1R).cost)]
termination_by s1R s2R => s1R.length + s2R.length
decreasing_by all_goals simp_arith

lemma distanceStr_errors (a b : List Char) (output : String)
    (cost : Move → Option CostEntry) :
    distanceStr a b output cost ≠ .error .brewNonStringInput ∧
    (distanceStr a b output cost = .error .brewInvalidOutput ↔
      ¬(output = "both" ∨ output = "distance" ∨ output = "edits")) := by
  by_cases hout : output = "both" ∨ output = "distance" ∨ output = "edits"
  · simp only [distanceStr, if_neg (not_not_intro hout), hout, iff_true, not_true,
      iff_false]
    cases h1 : cost Move.MATCH with
    | none => simp
    | some e1 =>
      cases e1 with
      | nonNum => simp
      | num mc =>
        cases h2 : cost Move.INS with
        | none => simp
        | some e2 =>
          cases e2 with
          | nonNum => simp
          | num ic =>
            cases h3 : cost Move.DEL with
            | none => simp
            | some e3 =>
              cases e3 with
              | nonNum => simp
              | num dc =>
                cases h4 : cost Move.SUBST with
                | none => simp
                | some e4 =>
                  cases e4 with
                  | nonNum => simp
                  | num sc =>
                    cases h5 : cost Move.INITIAL with
                    | none => simp
                    | some e5 =>
                      cases e5 with
                      | num i0 => split_ifs <;> simp_all
                      | nonNum => split_ifs <;> simp_all
  · simp [distanceStr, hout]

lemma exists_isScript_self : ∀ s1R : List Char,
    ∃ es, IsScript 0 1 1 1 es s1R.reverse s1R.reverse 0
  | [] => ⟨[], IsScript.nil⟩
  | a :: s1R => by
      obtain ⟨es, he⟩ := exists_isScript_self s1R
      exact ⟨es ++ [.MATCH], by simpa [List.reverse_cons] using he.match_ a⟩

/-- C1: for all strings `s`, `t` and every cost configuration with
nonnegative numeric costs and `Initial` cost `0`,
`distance(s, t, "distance", cost)` returns the least cost of an edit
script transforming `s` into `t` (a script as described by the spec:
match copies an equal character, substitute rewrites a character into a
differing one, insert produces a target character, delete consumes a
source character); in particular the result is nonnegative, and under
the default cost model `distance(s, s, "distance")` is `0`. -/
theorem distance_is_least_script_cost (s t : List Char) (mc ic dc sc : ℚ)
    (hmc : 0 ≤ mc) (hic : 0 ≤ ic) (hdc : 0 ≤ dc) (hsc : 0 ≤ sc) :
    (∃ d : ℚ,
      distance (.str s) (.str t) "distance" (mkCost mc ic dc sc 0) =
        .ok (.dist (.num d)) ∧
      IsLeast {c : ℚ | ∃ es, scriptCost mc ic dc sc es s t = some c} d ∧
      0 ≤ d) ∧
    distance (.str s) (.str s) "distance" defaultCost = .ok (.dist (.num 0)) := by
  constructor
  · refine ⟨(cell mc ic dc sc 0 s.reverse t.reverse).cost, ?_, ⟨?_, ?_⟩, ?_⟩
    · simp [distance, distanceStr, mkCost, mkCostE, edit_path]
    · obtain ⟨es, he⟩ := exists_isScript_cell mc ic dc sc s.reverse t.reverse
      rw [List.reverse_reverse, List.reverse_reverse] at he
      exact ⟨es, scriptCost_of_isScript he⟩
    · rintro c ⟨es, hes⟩
      exact cell_le_of_isScript (isScript_of_scriptCost es s t c hes)
    · exact cell_cost_nonneg mc ic dc sc 0 hmc hic hdc hsc le_rfl s.reverse t.reverse
  · have h0 : (cell 0 1 1 1 0 s.reverse s.reverse).cost = 0 := by
      obtain ⟨es, he⟩ := exists_isScript_self s.reverse
      rw [List.reverse_reverse] at he
      have hle := cell_le_of_isScript he
      have hge := cell_cost_nonneg 0 1 1 1 0 le_rfl (by norm_num) (by norm_num)
        (by norm_num) le_rfl s.reverse s.reverse
      linarith
    simp [distance, distanceStr, defaultCost, mkCost, mkCostE, edit_path, h0]

theorem distance_is_least_script_cost_witness :
    (0:ℚ) ≤ 0 ∧ (0:ℚ) ≤ 1 ∧
    ((∃ d : ℚ,
      distance (.str ['a', 'b']) (.str ['b']) "distance" (mkCost 0 1 1 1 0) =
        .ok (.dist (.num d)) ∧
      IsLeast {c : ℚ | ∃ es, scriptCost 0 1 1 1 es ['a', 'b'] ['b'] = some c} d ∧
      0 ≤ d) ∧
    distance (.str ['a', 'b']) (.str ['a', 'b']) "distance" defaultCost =
      .ok (.dist (.num 0))) :=
  ⟨le_rfl, by norm_num,
    distance_is_least_script_cost ['a', 'b'] ['b'] 0 1 1 1 le_rfl (by norm_num)
      (by norm_num) (by norm_num)⟩

/-- C2: every interior cell `(i+1, j+1)` is built by handing `_best` the
Diagonal, Horizontal (Insert) and Vertical (Delete) candidates in that
order (first conjunct); `_best` returns the minimum of the three totals
(second conjunct) and, since a later candidate replaces the best only on
a strictly smaller total, the diagonal candidate wins whenever its total
is no larger than the other two, the insertion candidate wins when
strictly below the diagonal total and no larger than the deletion total,
and the deletion candidate only when strictly below both — so equal
totals resolve as Substitute/Match over Insert over Delete; in each
clause, the recorded move is `Match` exactly when the chosen total
equals the chosen candidate's own predecessor cost, and is the
candidate's label otherwise. -/
theorem best_tiebreak_and_match_override (a1 a2 a3 : ℚ) (m1 m2 m3 : Move)
    (t1 t2 t3 : Traceback) :
    (∀ (mc ic dc sc i0 : ℚ) (c1 c2 : Char) (s1R s2R : List Char),
      cell mc ic dc sc i0 (c1 :: s1R) (c2 :: s2R) =
        best ((if c1 = c2 then mc else sc),
            (if (if c1 = c2 then mc else sc) = 0 then Move.MATCH else Move.SUBST),
            cell mc ic dc sc i0 s1R s2R)
          (ic, Move.INS, cell mc ic dc sc i0 (c1 :: s1R) s2R)
          (dc, Move.DEL, cell mc ic dc sc i0 s1R (c2 :: s2R))) ∧
    (best (a1, m1, t1) (a2, m2, t2) (a3, m3, t3)).cost =
      min (a1 + t1.cost) (min (a2 + t2.cost) (a3 + t3.cost)) ∧
    (a1 + t1.cost ≤ a2 + t2.cost → a1 + t1.cost ≤ a3 + t3.cost →
      best (a1, m1, t1) (a2, m2, t2) (a3, m3, t3) =
        Traceback.mk (a1 + t1.cost)
          (if a1 + t1.cost = t1.cost then Move.MATCH else m1) (some t1)) ∧
    (a2 + t2.cost < a1 + t1.cost → a2 + t2.cost ≤ a3 + t3.cost →
      best (a1, m1, t1) (a2, m2, t2) (a3, m3, t3) =
        Traceback.mk (a2 + t2.cost)
          (if a2 + t2.cost = t2.cost then Move.MATCH else m2) (some t2)) ∧
    (a3 + t3.cost < a1 + t1.cost → a3 + t3.cost < a2 + t2.cost →
      best (a1, m1, t1) (a2, m2, t2) (a3, m3, t3) =
        Traceback.mk (a3 + t3.cost)
          (if a3 + t3.cost = t3.cost then Move.MATCH else m3) (some t3)) := by
  refine ⟨?_, best_cost a1 a2 a3 m1 m2 m3 t1 t2 t3, ?_, ?_, ?_⟩
  · intro mc ic dc sc i0 c1 c2 s1R s2R
    simp [cell]
  · intro h12 h13
    rw [best_eq, if_neg (not_lt.mpr h12), if_neg (not_lt.mpr h13)]
    rfl
  · intro h21 h23
    rw [best_eq, if_pos h21, if_neg (not_lt.mpr h23)]
    rfl
  · intro h31 h32
    by_cases h21 : a2 + t2.cost < a1 + t1.cost
    · rw [best_eq, if_pos h21, if_pos h32]
      rfl
    · rw [best_eq, if_neg h21, if_pos h31]
      rfl

theorem best_tiebreak_and_match_override_witness :
    best (1, Move.SUBST, Traceback.mk 0 Move.INITIAL none)
        (1, Move.INS, Traceback.mk 0 Move.INITIAL none)
        (1, Move.DEL, Traceback.mk 0 Move.INITIAL none) =
      Traceback.mk 1 Move.SUBST (some (Traceback.mk 0 Move.INITIAL none)) := by
  have h := (best_tiebreak_and_match_override 1 1 1 Move.SUBST Move.INS Move.DEL
    (Traceback.mk 0 Move.INITIAL none) (Traceback.mk 0 Move.INITIAL none)
    (Traceback.mk 0 Move.INITIAL none)).2.2.1 le_rfl le_rfl
  simpa using h

/-- C3: under the default cost model, `distance(s, t, "edits")` returns
an edit sequence that never contains the `Initial` sentinel and that,
applied left to right to `s` (match copies the source character, insert
adds the target character, delete drops the source character, substitute
replaces it with the target character), reconstructs `t` exactly. -/
theorem distance_edits_reconstruct_target (s t : List Char) :
    ∃ es, distance (.str s) (.str t) "edits" defaultCost = .ok (.edits es) ∧
      Move.INITIAL ∉ es ∧ applyEdits es s t = some t := by
  refine ⟨list_edits (edit_path 0 1 1 1 0 s t), ?_, ?_, ?_⟩
  · simp [distance, distanceStr, defaultCost, mkCost, mkCostE]
  · simpa [edit_path] using
      initial_not_mem_list_edits 0 1 1 1 0 s.reverse t.reverse
  · have h := isScript_list_edits s.reverse t.reverse
    rw [List.reverse_reverse, List.reverse_reverse] at h
    exact applyEdits_eq_target _ s t _ (scriptCost_of_isScript h)

theorem distance_edits_reconstruct_target_witness :
    ∃ es, distance (.str ['f', 'o', 'o']) (.str ['f', 'o', 'u']) "edits" defaultCost =
        .ok (.edits es) ∧
      Move.INITIAL ∉ es ∧ applyEdits es ['f', 'o', 'o'] ['f', 'o', 'u'] =
        some ['f', 'o', 'u'] :=
  distance_edits_reconstruct_target ['f', 'o', 'o'] ['f', 'o', 'u']

/-- C4 counterexample: the claim says a cost mapping missing any of the
five kinds, or mapping one to a non-numeric value, makes `distance`
raise the invalid-cost error.  In the code, a mapping with the `Initial`
key missing raises `KeyError` (from the `cost[m]` subscript in
`_edit_path`) instead, and a mapping whose `Initial` entry is
non-numeric passes validation entirely: on empty inputs the call
succeeds and returns the non-numeric value as the distance. -/
theorem distance_cost_validation_cex :
    distance (.str []) (.str []) "distance"
        (fun m => if m = Move.INITIAL then none else defaultCost m) =
      .error (.keyError Move.INITIAL) ∧
    distance (.str []) (.str []) "distance"
        (mkCostE (.num 0) (.num 1) (.num 1) (.num 1) .nonNum) =
      .ok (.dist .nonNum) := by
  constructor
  · simp [distance, distanceStr, defaultCost, mkCost, mkCostE]
  · simp [distance, distanceStr, mkCostE]

/-- C4 (amended): for string inputs, a recognized mode and a cost
mapping containing entries for all five kinds, `distance` raises the
invalid-cost error if and only if one of the `Match`, `Insert`,
`Delete`, `Substitute` entries is non-numeric (this validation happens
before any matrix cell is computed; the `Initial` entry is not
inspected by it); in particular, with all five entries numeric no cost
error is raised. -/
theorem distance_invalid_cost_iff (a b : List Char) (output : String)
    (e1 e2 e3 e4 e5 : CostEntry)
    (hout : output = "both" ∨ output = "distance" ∨ output = "edits") :
    distance (.str a) (.str b) output (mkCostE e1 e2 e3 e4 e5) =
        .error .brewInvalidCost ↔
      (e1 = .nonNum ∨ e2 = .nonNum ∨ e3 = .nonNum ∨ e4 = .nonNum) := by
  rcases e1 <;> rcases e2 <;> rcases e3 <;> rcases e4 <;> rcases e5 <;>
    simp only [distance, distanceStr, mkCostE, if_neg (not_not_intro hout)] <;>
    (try split_ifs) <;> simp

theorem distance_invalid_cost_iff_witness :
    distance (.str []) (.str []) "distance"
        (mkCostE (.num 0) (.num 1) (.num 1) .nonNum (.num 0)) =
      .error .brewInvalidCost :=
  (distance_invalid_cost_iff [] [] "distance" (.num 0) (.num 1) (.num 1) .nonNum
    (.num 0) (Or.inr (Or.inl rfl))).mpr (by simp)

/-- C5: the fixed-cost implementation `sdist` of `string_distance.py`
returns, for every pair of strings, exactly the number returned by the
configurable implementation `distance(s, t, "distance")` under its
default cost configuration. -/
theorem sdist_eq_distance_default (s t : List Char) :
    distance (.str s) (.str t) "distance" defaultCost =
      .ok (.dist (.num (sdist s t))) := by
  simp [distance, distanceStr, defaultCost, mkCost, mkCostE, edit_path, sdist,
    sdistCell_eq_cell]

/-- C6: for all strings and every all-numeric cost configuration whose
`Insert` cost equals its `Delete` cost, the distance is symmetric:
`distance(a, b, "distance", cost) = distance(b, a, "distance", cost)`
(the shared value `ic` plays both the insert and delete roles). -/
theorem distance_symm_ins_eq_del (a b : List Char) (mc ic sc i0 : ℚ) :
    distance (.str a) (.str b) "distance" (mkCost mc ic ic sc i0) =
      distance (.str b) (.str a) "distance" (mkCost mc ic ic sc i0) := by
  simp [distance, distanceStr, mkCost, mkCostE, edit_path,
    cell_symm mc ic sc i0 a.reverse b.reverse]

/-- C7: for all strings and every all-numeric cost configuration, mode
`"both"` returns a pair whose first element is the number that mode
`"distance"` returns alone and whose second element is the edit
sequence that mode `"edits"` returns alone. -/
theorem distance_both_combines_modes (a b : List Char) (mc ic dc sc i0 : ℚ) :
    ∃ (d : CostEntry) (es : List Move),
      distance (.str a) (.str b) "both" (mkCost mc ic dc sc i0) =
        .ok (.both d es) ∧
      distance (.str a) (.str b) "distance" (mkCost mc ic dc sc i0) =
        .ok (.dist d) ∧
      distance (.str a) (.str b) "edits" (mkCost mc ic dc sc i0) =
        .ok (.edits es) := by
  refine ⟨.num (edit_path mc ic dc sc i0 a b).cost,
    list_edits (edit_path mc ic dc sc i0 a b), ?_, ?_, ?_⟩ <;>
    simp [distance, distanceStr, mkCost, mkCostE]

/-- C8 counterexample: the claim asserts distance `0` for
`distance("", "")` under every valid cost configuration, but the empty
by-empty cell carries the `Initial` cost: with the valid configuration
`{Match: 0, Insert: 1, Delete: 1, Substitute: 1, Initial: 5}` the call
returns `5`, not `0`. -/
theorem distance_empty_nonzero_initial_cex :
    distance (.str []) (.str []) "distance" (mkCost 0 1 1 1 5) =
      .ok (.dist (.num 5)) ∧
    distance (.str []) (.str []) "distance" (mkCost 0 1 1 1 5) ≠
      .ok (.dist (.num 0)) := by
  constructor
  · simp [distance, distanceStr, mkCost, mkCostE, edit_path, cell]
  · simp [distance, distanceStr, mkCost, mkCostE, edit_path, cell]

/-- C8 (amended): under every all-numeric cost configuration whose
`Initial` cost is `0`, `distance("", "")` yields distance `0` with an
empty edit sequence, and `distance("", "abc")` yields distance
`3 × insert_cost` with edit sequence `[Insert, Insert, Insert]`. -/
theorem distance_empty_string_cases (mc ic dc sc : ℚ) :
    distance (.str []) (.str []) "both" (mkCost mc ic dc sc 0) =
      .ok (.both (.num 0) []) ∧
    distance (.str []) (.str ['a', 'b', 'c']) "both" (mkCost mc ic dc sc 0) =
      .ok (.both (.num (3 * ic)) [.INS, .INS, .INS]) := by
  constructor
  · simp [distance, distanceStr, mkCost, mkCostE, edit_path, cell, list_edits]
  · simp [distance, distanceStr, mkCost, mkCostE, edit_path, cell, list_edits]
    ring

/-- C9: `distance` raises the non-string-input error exactly when one of
the two inputs is not a string (this check precedes all others), and,
for string inputs, raises the invalid-output-mode error exactly when the
mode is none of `"distance"`, `"edits"`, `"both"` — whatever the cost
mapping. -/
theorem distance_input_and_mode_errors (s1 s2 : PyInput) (output : String)
    (cost : Move → Option CostEntry) :
    (distance s1 s2 output cost = .error .brewNonStringInput ↔
      ¬∃ a b : List Char, s1 = .str a ∧ s2 = .str b) ∧
    (∀ a b : List Char, s1 = .str a → s2 = .str b →
      (distance s1 s2 output cost = .error .brewInvalidOutput ↔
        ¬(output = "both" ∨ output = "distance" ∨ output = "edits"))) := by
  constructor
  · cases s1 with
    | nonStr => simp [distance]
    | str a =>
      cases s2 with
      | nonStr => simp [distance]
      | str b => simpa [distance] using (distanceStr_errors a b output cost).1
  · rintro a b rfl rfl
    simpa [distance] using (distanceStr_errors a b output cost).2

theorem distance_input_and_mode_errors_witness :
    distance .nonStr (.str []) "bogus" defaultCost = .error .brewNonStringInput ∧
    distance (.str []) (.str []) "bogus" defaultCost = .error .brewInvalidOutput :=
  ⟨(distance_input_and_mode_errors .nonStr (.str []) "bogus" defaultCost).1.mpr
      (by simp),
    ((distance_input_and_mode_errors (.str []) (.str []) "bogus" defaultCost).2
      [] [] rfl rfl).mpr (by simp)⟩

/-- C10: a call to `distance` never mutates the cost configuration it
receives.  The source only reads the mapping (subscript lookups), so in
the explicit-state view `distanceCall` the post-call cost state equals
the pre-call state — also for the statically shared default mapping —
and a repeated call starting from the state left behind by a first call
returns the identical result. -/
theorem distance_preserves_cost_state (s1 s2 : PyInput) (output : String)
    (cost : Move → Option CostEntry) :
    (distanceCall s1 s2 output cost).2 = cost ∧
    (distanceCall s1 s2 output defaultCost).2 = defaultCost ∧
    (distanceCall s1 s2 output ((distanceCall s1 s2 output cost).2)).1 =
      (distanceCall s1 s2 output cost).1 :=
  ⟨rfl, rfl, rfl⟩

end BrewDistance
